import Mathlib

/-!
Verification of the pandoky flat-file wiki engine (a Flask application in
`app.py`, `config.py` and the `plugins/` directory) against its
natural-language specification.

Strings are modelled as lists of character codepoints (`List Nat`), so the
string-processing functions from the source (`slugify`, the page-name
normalization, the indexer's tokenizer) become executable Lean functions.
Python dicts (which preserve insertion order and have unique keys) are
modelled as association lists; the unique-key property is taken as a
hypothesis where a proof needs it.
-/

namespace Pandoky

/-- A string, modelled as the list of its character codepoints. -/
abbrev Text := List Nat

/-- Codepoints of a Lean string literal, for readable concrete inputs. -/
def str (s : String) : Text := s.data.map Char.toNat

/-- Python `str.lower()` on one character (ASCII model):
codepoints 65–90 map to 97–122, everything else is unchanged. -/
def lowerChar (n : Nat) : Nat := if 65 ≤ n ∧ n ≤ 90 then n + 32 else n

/-- Python regex `\s` (ASCII model): space, tab, LF, VT, FF, CR. -/
def isSpaceChar (n : Nat) : Bool := n = 32 || n = 9 || n = 10 || n = 11 || n = 12 || n = 13

/-- Python regex `\w` (ASCII model): digits, letters, underscore. -/
def isWordChar (n : Nat) : Bool :=
  (48 ≤ n && n ≤ 57) || (65 ≤ n && n ≤ 90) || (97 ≤ n && n ≤ 122) || n = 95

/-- Model of `re.sub(r"\s+", "-", s)`: replace each maximal run of whitespace by a
single hyphen (codepoint 45).  The flag records whether the previous
character belonged to a whitespace run. -/
def collapseWsAux (prevSpace : Bool) : Text → Text
  | [] => []
  | c :: cs =>
    if isSpaceChar c then
      if prevSpace then collapseWsAux true cs else 45 :: collapseWsAux true cs
    else c :: collapseWsAux false cs

def collapseWs (s : Text) : Text := collapseWsAux false s

/-- Model of `app.py` `slugify`: lower-case, collapse whitespace runs to `-`,
then drop every character that is neither a word character nor `-`
(`re.sub(r"[^\w\-]", "", text)`). -/
def slugify (s : Text) : Text :=
  (collapseWs (s.map lowerChar)).filter (fun c => isWordChar c || c == 45)

/-- Python `str.split(sep)` for a single-character separator: e.g.
splitting `""` gives `[""]` and splitting `"a//b"` on `/` gives
`["a", "", "b"]`. -/
def splitOnSep (sep : Nat) : Text → List Text
  | [] => [[]]
  | c :: cs =>
    match splitOnSep sep cs with
    | [] => [[]]
    | h :: t => if c = sep then [] :: h :: t else (c :: h) :: t

/-- Python `"/".join(parts)`. -/
def joinSep (sep : Nat) : List Text → Text
  | [] => []
  | [x] => x
  | x :: xs => x ++ sep :: joinSep sep xs

/-- The nonempty `/`-separated segments of a page name:
`filter(None, page_name.split('/'))`. -/
def pageSegments (s : Text) : List Text := (splitOnSep 47 s).filter (fun seg => !seg.isEmpty)

/-- Model of `app.py` `_get_page_data` / `edit_page` / `save_page` page-name
normalization: `'/'.join(slugify(part) for part in filter(None, page_name.split('/')))`. -/
def normalizePageName (s : Text) : Text := joinSep 47 ((pageSegments s).map slugify)

/- ### Basic lemmas about the character model -/

theorem lowerChar_idem (n : Nat) : lowerChar (lowerChar n) = lowerChar n := by
  by_cases h : 65 ≤ n ∧ n ≤ 90
  · have h1 : lowerChar n = n + 32 := if_pos h
    rw [h1]
    unfold lowerChar
    rw [if_neg (by omega)]
  · have h1 : lowerChar n = n := if_neg h
    rw [h1]
    exact h1

theorem lowerChar_45 : lowerChar 45 = 45 := by decide

/-- Characters kept by the slugify filter are not whitespace. -/
theorem kept_not_space {c : Nat} (h : (isWordChar c || c == 45) = true) :
    isSpaceChar c = false := by
  simp only [isWordChar, isSpaceChar, Bool.or_eq_true, beq_iff_eq, decide_eq_true_eq,
    Bool.and_eq_true, Bool.or_eq_false_iff, decide_eq_false_iff_not] at h ⊢
  omega

/-- Characters kept by the slugify filter are not the path separator `/`. -/
theorem kept_not_slash {c : Nat} (h : (isWordChar c || c == 45) = true) : c ≠ 47 := by
  simp only [isWordChar, Bool.or_eq_true, beq_iff_eq, decide_eq_true_eq,
    Bool.and_eq_true] at h
  omega

/-- Elements produced by `collapseWsAux` come from the input or are the
hyphen it inserts. -/
theorem mem_collapseWsAux {c : Nat} :
    ∀ (b : Bool) (s : Text), c ∈ collapseWsAux b s → c = 45 ∨ c ∈ s := by
  intro b s
  induction s generalizing b with
  | nil => intro h; simp [collapseWsAux] at h
  | cons x xs ih =>
    intro h
    simp only [collapseWsAux] at h
    by_cases hx : isSpaceChar x
    · simp only [hx, if_true] at h
      by_cases hb : b
      · rcases ih true (by simpa [hb] using h) with h' | h'
        · exact Or.inl h'
        · exact Or.inr (List.mem_cons_of_mem _ h')
      · simp only [hb, if_false] at h
        rcases List.mem_cons.mp h with h' | h'
        · exact Or.inl h'
        · rcases ih true h' with h'' | h''
          · exact Or.inl h''
          · exact Or.inr (List.mem_cons_of_mem _ h'')
    · simp only [hx, if_false] at h
      rcases List.mem_cons.mp h with h' | h'
      · exact Or.inr (h' ▸ List.mem_cons_self x xs)
      · rcases ih false h' with h'' | h''
        · exact Or.inl h''
        · exact Or.inr (List.mem_cons_of_mem _ h'')

/-- On whitespace-free input, collapsing whitespace is the identity. -/
theorem collapseWsAux_id {s : Text} (h : ∀ c ∈ s, isSpaceChar c = false) :
    ∀ b, collapseWsAux b s = s := by
  induction s with
  | nil => intro b; rfl
  | cons x xs ih =>
    intro b
    have hx : isSpaceChar x = false := h x (List.mem_cons_self _ _)
    simp only [collapseWsAux, hx, Bool.false_eq_true, if_false]
    exact congrArg (x :: ·) (ih (fun c hc => h c (List.mem_cons_of_mem _ hc)) false)

/-- Every character of a slug is lower-case stable. -/
theorem slugify_chars_lower {s : Text} {c : Nat} (h : c ∈ slugify s) :
    lowerChar c = c := by
  have h1 : c ∈ collapseWs (s.map lowerChar) := List.mem_of_mem_filter h
  rcases mem_collapseWsAux false _ h1 with h2 | h2
  · subst h2; exact lowerChar_45
  · rcases List.mem_map.mp h2 with ⟨a, _, ha⟩
    subst ha; exact lowerChar_idem a

/-- Every character of a slug passes the slugify filter. -/
theorem slugify_chars_kept {s : Text} {c : Nat} (h : c ∈ slugify s) :
    (isWordChar c || c == 45) = true := by
  have h' : c ∈ (collapseWs (s.map lowerChar)).filter (fun c => isWordChar c || c == 45) := h
  exact (List.mem_filter.mp h').2

theorem map_id_of_forall {α : Type} {l : List α} {f : α → α} (h : ∀ c ∈ l, f c = c) :
    l.map f = l := by
  induction l with
  | nil => rfl
  | cons x xs ih =>
    simp only [List.map_cons, h x (List.mem_cons_self _ _)]
    exact congrArg (x :: ·) (ih fun c hc => h c (List.mem_cons_of_mem _ hc))

/-- Claim C9, first half: `slugify` is idempotent. -/
theorem slugify_idem (s : Text) : slugify (slugify s) = slugify s := by
  have hmap : (slugify s).map lowerChar = slugify s :=
    map_id_of_forall (fun c hc => slugify_chars_lower hc)
  have hnospace : ∀ c ∈ slugify s, isSpaceChar c = false :=
    fun c hc => kept_not_space (slugify_chars_kept hc)
  have hcollapse : collapseWs (slugify s) = slugify s := collapseWsAux_id hnospace false
  have hfilter : (slugify s).filter (fun c => isWordChar c || c == 45) = slugify s :=
    List.filter_eq_self.mpr (fun c hc => slugify_chars_kept hc)
  show (collapseWs ((slugify s).map lowerChar)).filter (fun c => isWordChar c || c == 45) =
    slugify s
  rw [hmap, hcollapse]
  exact hfilter

/-- The separator `/` never occurs in a slug. -/
theorem slash_not_mem_slugify (s : Text) : 47 ∉ slugify s := by
  intro h
  exact kept_not_slash (slugify_chars_kept h) rfl

/- ### Split / join round trip -/

theorem splitOnSep_ne_nil (sep : Nat) (s : Text) : splitOnSep sep s ≠ [] := by
  cases s with
  | nil => simp [splitOnSep]
  | cons c cs =>
    simp only [splitOnSep]
    cases h : splitOnSep sep cs with
    | nil => simp
    | cons h' t => by_cases hc : c = sep <;> simp [hc]

theorem splitOnSep_no_sep {sep : Nat} {p : Text} (h : sep ∉ p) :
    splitOnSep sep p = [p] := by
  induction p with
  | nil => rfl
  | cons c cs ih =>
    have hc : c ≠ sep := fun hh => h (hh ▸ List.mem_cons_self _ _)
    have hcs : sep ∉ cs := fun hh => h (List.mem_cons_of_mem _ hh)
    simp only [splitOnSep]
    rw [ih hcs]
    simp [hc]

theorem splitOnSep_append_sep {sep : Nat} {p rest : Text} (h : sep ∉ p) :
    splitOnSep sep (p ++ sep :: rest) = p :: splitOnSep sep rest := by
  induction p with
  | nil =>
    simp only [List.nil_append, splitOnSep]
    cases hs : splitOnSep sep rest with
    | nil => exact absurd hs (splitOnSep_ne_nil sep rest)
    | cons h' t => simp
  | cons c cs ih =>
    have hc : c ≠ sep := fun hh => h (hh ▸ List.mem_cons_self _ _)
    have hcs : sep ∉ cs := fun hh => h (List.mem_cons_of_mem _ hh)
    have h2 := ih hcs
    simp only [List.cons_append, splitOnSep]
    cases h3 : splitOnSep sep (cs ++ sep :: rest) with
    | nil => simp [h3] at h2
    | cons a b =>
      rw [h3] at h2
      injection h2 with e1 e2
      simp [e1, e2, hc]

theorem splitOnSep_joinSep {sep : Nat} {parts : List Text}
    (hne : parts ≠ []) (hno : ∀ p ∈ parts, sep ∉ p) :
    splitOnSep sep (joinSep sep parts) = parts := by
  induction parts with
  | nil => exact absurd rfl hne
  | cons p ps ih =>
    cases ps with
    | nil =>
      simp only [joinSep]
      exact splitOnSep_no_sep (hno p (List.mem_cons_self _ _))
    | cons q qs =>
      show splitOnSep sep (p ++ sep :: joinSep sep (q :: qs)) = _
      rw [splitOnSep_append_sep (hno p (List.mem_cons_self _ _))]
      rw [ih (by simp) (fun r hr => hno r (List.mem_cons_of_mem _ hr))]

/-- Counterexample for claim C9: the multi-segment page-name normalization
is not idempotent.  For the page name `"a/!/b"` the middle segment
slugifies to the empty string, so one pass yields `"a//b"` while a second
pass collapses the doubled separator to `"a/b"`. -/
theorem normalizePageName_not_idem_at_example :
    normalizePageName (normalizePageName (str ("a/!/b"))) ≠
      normalizePageName (str ("a/!/b")) := by decide

/-- Claim C9 (amended): `slugify` is idempotent on every input, and the
multi-segment normalization is idempotent on every page name whose
retained segments all slugify to a nonempty string. -/
theorem normalization_idem :
    (∀ s : Text, slugify (slugify s) = slugify s) ∧
    (∀ s : Text, (∀ seg ∈ pageSegments s, slugify seg ≠ []) →
      normalizePageName (normalizePageName s) = normalizePageName s) := by
  refine ⟨slugify_idem, ?_⟩
  intro s hs
  unfold normalizePageName
  set parts := (pageSegments s).map slugify with hparts
  by_cases hp : parts = []
  · rw [hp]
    rfl
  · have hno : ∀ q ∈ parts, 47 ∉ q := by
      intro q hq
      rcases List.mem_map.mp (hparts ▸ hq) with ⟨seg, _, hseg⟩
      exact hseg ▸ slash_not_mem_slugify seg
    have hsplit : splitOnSep 47 (joinSep 47 parts) = parts :=
      splitOnSep_joinSep hp hno
    have hnonempty : ∀ q ∈ parts, q ≠ [] := by
      intro q hq
      rcases List.mem_map.mp (hparts ▸ hq) with ⟨seg, hsegmem, hseg⟩
      exact hseg ▸ hs seg hsegmem
    have hfilter : parts.filter (fun seg => !seg.isEmpty) = parts := by
      refine List.filter_eq_self.mpr ?_
      intro q hq
      cases hq' : q with
      | nil => exact absurd hq' (hnonempty q hq)
      | cons a as => rfl
    have hmap : parts.map slugify = parts := by
      refine map_id_of_forall ?_
      intro q hq
      rcases List.mem_map.mp (hparts ▸ hq) with ⟨seg, _, hseg⟩
      rw [← hseg, slugify_idem]
    show joinSep 47 ((pageSegments (joinSep 47 parts)).map slugify) = joinSep 47 parts
    unfold pageSegments
    rw [hsplit, hfilter, hmap]

/-- Witness for the amended C9 theorem at the concrete page name `"alpha/beta"`. -/
theorem normalization_idem_witness :
    (∀ seg ∈ pageSegments (str ("alpha/beta")), slugify seg ≠ []) ∧
    normalizePageName (normalizePageName (str ("alpha/beta"))) =
      normalizePageName (str ("alpha/beta")) :=
  ⟨by decide, normalization_idem.2 (str ("alpha/beta")) (by decide)⟩

/-! ## Hook dispatcher (`app.py`, `trigger_hook`)

A callback invocation either returns a value (`ret (some v)`), returns
Python `None` (`ret none`), raises `PermissionError` (`perm`), or raises
any other exception (`err`).  `trigger_hook` threads the first positional
argument through the callback chain; `PermissionError` is re-raised,
every other exception is logged and swallowed. -/

inductive CbResult (α : Type) where
  | ret : Option α → CbResult α
  | err : CbResult α
  | perm : CbResult α
deriving DecidableEq

/-- The argument a callback receives: the current payload if it is not
`None`, otherwise the original first positional argument (the source
calls `function(*args, ...)` in that branch). -/
def callbackArg {α : Type} (arg0 : Option α) (data : Option α) : Option α :=
  match data with
  | some v => some v
  | none => arg0

/-- The loop body of `trigger_hook` for a call with exactly one positional
argument.  `arg0` is the original first argument, `data` the running
`data_to_modify`.  A `perm` outcome re-raises (`Except.error`), an `err`
outcome is swallowed and the chain continues, a returned non-`None` value
replaces the payload, and a returned `None` leaves it unchanged. -/
def triggerHookAux {α : Type} (arg0 : Option α) :
    List (Option α → CbResult α) → Option α → Except Unit (Option α)
  | [], data => .ok data
  | f :: fs, data =>
    match f (callbackArg arg0 data) with
    | .perm => .error ()
    | .err => triggerHookAux arg0 fs data
    | .ret none => triggerHookAux arg0 fs data
    | .ret (some w) => triggerHookAux arg0 fs (some w)

/-- Model of `trigger_hook(hook_name, x)`: one positional argument `x`
(possibly `None`), threading it through the registered callbacks. -/
def triggerHookOne {α : Type} (fs : List (Option α → CbResult α)) (arg0 : Option α) :
    Except Unit (Option α) :=
  triggerHookAux arg0 fs arg0

/-- Whether a callback outcome is a `PermissionError`. -/
def isPerm {α : Type} : CbResult α → Bool
  | .perm => true
  | _ => false

/-- Model of `trigger_hook(hook_name)` with zero positional arguments:
`data_to_modify` starts as `None` and the capture condition
`data_to_modify is None and args and result is not None` is always false
because `args` is empty, so no callback result is ever captured. -/
def triggerHookZero {α : Type} : List (Unit → CbResult α) → Except Unit (Option α)
  | [] => .ok none
  | f :: fs =>
    match f () with
    | .perm => .error ()
    | _ => triggerHookZero fs

theorem callbackArg_self {α : Type} (p : Option α) : callbackArg p p = p := by
  cases p <;> rfl

theorem callbackArg_some {α : Type} (a : Option α) (v : α) :
    callbackArg a (some v) = some v := rfl

/-- Claim C3: with callbacks `[f1, f2]` and payload `x`, if `f1 x = y` and
`f2 y = z` then dispatch returns `z`; if `f2` raises a non-authorization
error, dispatch returns `y` and the error does not propagate; a callback
returning `None` leaves the payload unchanged. -/
theorem trigger_hook_threading {α : Type} :
    (∀ (f1 f2 : Option α → CbResult α) (p : Option α) (y z : α),
      f1 p = .ret (some y) → f2 (some y) = .ret (some z) →
      triggerHookOne [f1, f2] p = .ok (some z)) ∧
    (∀ (f1 f2 : Option α → CbResult α) (p : Option α) (y : α),
      f1 p = .ret (some y) → f2 (some y) = .err →
      triggerHookOne [f1, f2] p = .ok (some y)) ∧
    (∀ (f1 f2 : Option α → CbResult α) (p : Option α) (y : α),
      f1 p = .ret (some y) → f2 (some y) = .ret none →
      triggerHookOne [f1, f2] p = .ok (some y)) := by
  refine ⟨?_, ?_, ?_⟩
  · intro f1 f2 p y z h1 h2
    simp [triggerHookOne, triggerHookAux, callbackArg_self, callbackArg_some, h1, h2]
  · intro f1 f2 p y h1 h2
    simp [triggerHookOne, triggerHookAux, callbackArg_self, callbackArg_some, h1, h2]
  · intro f1 f2 p y h1 h2
    simp [triggerHookOne, triggerHookAux, callbackArg_self, callbackArg_some, h1, h2]

/-- Witness for C3 with concrete callbacks over `Nat`. -/
theorem trigger_hook_threading_witness :
    ((fun _ => CbResult.ret (some 1) : Option Nat → CbResult Nat) (some 0) =
        .ret (some 1) ∧
      triggerHookOne [(fun _ => CbResult.ret (some 1)),
        (fun _ => CbResult.ret (some 2))] (some 0) = .ok (some 2)) ∧
    (triggerHookOne [(fun _ => CbResult.ret (some 1)),
        (fun _ => CbResult.err)] (some 0) = .ok (some 1)) ∧
    (triggerHookOne [(fun _ => CbResult.ret (some 1)),
        (fun _ => CbResult.ret none)] (some 0) = .ok (some 1)) :=
  ⟨⟨rfl, trigger_hook_threading.1 _ _ (some 0) 1 2 rfl rfl⟩,
    trigger_hook_threading.2.1 _ _ (some 0) 1 rfl rfl,
    trigger_hook_threading.2.2 _ _ (some 0) 1 rfl rfl⟩

/-- Chain composition: dispatching over `xs ++ ys` first runs `xs`; if that
raises, `ys` never runs, otherwise `ys` continues from the payload `xs`
produced. -/
theorem triggerHookAux_append {α : Type} (arg0 : Option α)
    (xs ys : List (Option α → CbResult α)) (p : Option α) :
    triggerHookAux arg0 (xs ++ ys) p =
      match triggerHookAux arg0 xs p with
      | .error e => .error e
      | .ok q => triggerHookAux arg0 ys q := by
  induction xs generalizing p with
  | nil => rfl
  | cons f fs ih =>
    show triggerHookAux arg0 (f :: (fs ++ ys)) p = _
    simp only [triggerHookAux]
    cases f (callbackArg arg0 p) with
    | perm => rfl
    | err => exact ih p
    | ret o => cases o with
      | none => exact ih p
      | some w => exact ih (some w)

/-- Claim C4: a `PermissionError` raised by a callback propagates to the
dispatch caller as soon as that callback runs: whatever callbacks follow
the raising one, the dispatch result is the error (so no later callback
can influence the result), and conversely if no callback raises
`PermissionError` the dispatcher always returns normally — it is the only
error kind that escapes. -/
theorem trigger_hook_perm_abort {α : Type} :
    (∀ (pre rest : List (Option α → CbResult α)) (g : Option α → CbResult α)
      (arg0 p q : Option α),
      triggerHookAux arg0 pre p = .ok q →
      g (callbackArg arg0 q) = .perm →
      triggerHookAux arg0 (pre ++ g :: rest) p = .error ()) ∧
    (∀ (fs : List (Option α → CbResult α)) (arg0 p : Option α),
      (∀ f ∈ fs, ∀ x, f x ≠ .perm) →
      ∃ q, triggerHookAux arg0 fs p = .ok q) := by
  constructor
  · intro pre rest g arg0 p q hpre hg
    rw [triggerHookAux_append, hpre]
    show triggerHookAux arg0 (g :: rest) q = _
    simp only [triggerHookAux, hg]
  · intro fs
    induction fs with
    | nil => intro arg0 p _; exact ⟨p, rfl⟩
    | cons f fs ih =>
      intro arg0 p hno
      have hf : ∀ x, f x ≠ .perm := hno f (List.mem_cons_self _ _)
      have hrest : ∀ f' ∈ fs, ∀ x, f' x ≠ .perm :=
        fun f' hf' => hno f' (List.mem_cons_of_mem _ hf')
      show ∃ q, triggerHookAux arg0 (f :: fs) p = .ok q
      simp only [triggerHookAux]
      cases hx : f (callbackArg arg0 p) with
      | perm => exact absurd hx (hf _)
      | err => exact ih arg0 p hrest
      | ret o => cases o with
        | none => exact ih arg0 p hrest
        | some w => exact ih arg0 (some w) hrest

/-- Witness for C4: a permission error in the second callback aborts the
chain even though a third callback follows, and a chain of swallowed
ordinary errors returns normally. -/
theorem trigger_hook_perm_abort_witness :
    (triggerHookAux (some 0) [(fun _ => CbResult.ret (some (1 : Nat)))] (some 0) =
        .ok (some 1) ∧
      (fun _ => (CbResult.perm : CbResult Nat)) (callbackArg (some 0) (some 1)) = .perm ∧
      triggerHookAux (some 0)
        ([(fun _ => CbResult.ret (some 1))] ++
          (fun _ => CbResult.perm) :: [(fun _ => CbResult.ret (some 5))]) (some 0) =
        .error ()) ∧
    (∃ q, triggerHookAux (some 0) [(fun _ => (CbResult.err : CbResult Nat))] (some 0) =
      .ok q) :=
  ⟨⟨rfl, rfl,
      trigger_hook_perm_abort.1 [(fun _ => CbResult.ret (some 1))]
        [(fun _ => CbResult.ret (some 5))] (fun _ => CbResult.perm)
        (some 0) (some 0) (some 1) rfl rfl⟩,
    trigger_hook_perm_abort.2 [(fun _ => CbResult.err)] (some 0) (some 0)
      (by
        intro f hf x
        rw [List.mem_singleton] at hf
        subst hf
        intro hcontra
        cases hcontra)⟩

/-- Claim C10: dispatching a hook with zero positional arguments either
re-raises a `PermissionError` (when some callback raises one) or returns
`None`, regardless of what values the callbacks return. -/
theorem trigger_hook_zero_args_returns_none {α : Type}
    (fs : List (Unit → CbResult α)) :
    triggerHookZero fs =
      if fs.any (fun f => isPerm (f ())) then .error () else .ok none := by
  induction fs with
  | nil => rfl
  | cons f fs ih =>
    cases hx : f () with
    | perm => simp [triggerHookZero, hx, isPerm]
    | err => simp [triggerHookZero, hx, isPerm, ih]
    | ret o => simp [triggerHookZero, hx, isPerm, ih]

/-! ## Full-text indexer (`plugins/fulltext_indexer.py`)

The JSON data files are modelled as association lists mirroring Python
dicts (insertion order preserved, first-match lookup).  Markdown-to-plain
text extraction is performed by the external pandoc binary and is outside
the model: `plainBody` below stands for the extracted plain text that the
indexer tokenizes.  `math.log` is likewise external and abstracted as a
function parameter; claims C5 and C6 never inspect TF-IDF weights. -/

/-- First-match lookup in a Python-dict model. -/
def dictFind {κ ν : Type} [DecidableEq κ] (k : κ) : List (κ × ν) → Option ν
  | [] => none
  | e :: rest => if e.1 = k then some e.2 else dictFind k rest

/-- Model of `d[k] = x` on a Python-dict model: replace in place, else append. -/
def dictSet {κ ν : Type} [DecidableEq κ] : List (κ × ν) → κ → ν → List (κ × ν)
  | [], k, x => [(k, x)]
  | e :: rest, k, x => if e.1 = k then (k, x) :: rest else e :: dictSet rest k x

/-- One posting of the inverted index: `{"page_id": ..., "tf": ...}`. -/
structure Posting where
  pageId : Nat
  tf : Nat
deriving DecidableEq, Repr

/-- The inverted index file: word-id to list of postings. -/
abbrev InvIndex := List (Nat × List Posting)

/-- The vocabulary file `indexer_vocabulary.json`. -/
structure Vocab where
  nextWordId : Nat
  wordToId : List (Text × Nat)
  idToWord : List (Nat × Text)
deriving DecidableEq, Repr

/-- The page metadata file `indexer_page_meta.json`. -/
structure PageMeta where
  nextPageId : Nat
  slugToId : List (Text × Nat)
  idToSlug : List (Nat × Text)
deriving DecidableEq, Repr

/-- A stored TF-IDF vector: word-id to weight.  Weights are idealized as
rationals; no claim below inspects them. -/
abbrev TfVec := List (Nat × ℚ)

/-- The indexer's four persisted JSON files. -/
structure IndexState where
  meta : PageMeta
  vocab : Vocab
  inv : InvIndex
  vectors : List (Nat × TfVec)
deriving DecidableEq, Repr

/-- Model of `get_or_create_page_id`. -/
def getOrCreatePageId (m : PageMeta) (slug : Text) : PageMeta × Nat :=
  match dictFind slug m.slugToId with
  | some pid => (m, pid)
  | none =>
    ({ nextPageId := m.nextPageId + 1,
       slugToId := m.slugToId ++ [(slug, m.nextPageId)],
       idToSlug := m.idToSlug ++ [(m.nextPageId, slug)] }, m.nextPageId)

/-- Model of `get_or_create_word_id`. -/
def getOrCreateWordId (v : Vocab) (w : Text) : Vocab × Nat :=
  match dictFind w v.wordToId with
  | some wid => (v, wid)
  | none =>
    ({ nextWordId := v.nextWordId + 1,
       wordToId := v.wordToId ++ [(w, v.nextWordId)],
       idToWord := v.idToWord ++ [(v.nextWordId, w)] }, v.nextWordId)

/-- Model of `re.findall(r"\b\w+\b", text)`: the maximal nonempty runs of word
characters.  `cur` is the run being accumulated, in reverse. -/
def wordRunsAux (cur : Text) : Text → List Text
  | [] => if cur.isEmpty then [] else [cur.reverse]
  | c :: cs =>
    if isWordChar c then wordRunsAux (c :: cur) cs
    else if cur.isEmpty then wordRunsAux [] cs
    else cur.reverse :: wordRunsAux [] cs

/-- Model of `tokenize_and_normalize` from `fulltext_indexer.py`:
`re.findall(r"\b\w+\b", text_content.lower())`. -/
def tokenize_and_normalize (text : Text) : List Text :=
  wordRunsAux [] (text.map lowerChar)

/-- First occurrences, in order, of a list of tokens: the key order of
`collections.Counter(tokens)`. -/
def dedupFirstAux (seen : List Text) : List Text → List Text
  | [] => []
  | x :: xs => if x ∈ seen then dedupFirstAux seen xs else x :: dedupFirstAux (x :: seen) xs

def dedupFirst (l : List Text) : List Text := dedupFirstAux [] l

/-- Model of `Counter(tokens).items()`: distinct tokens in first-occurrence order,
with their multiplicities. -/
def counterItems (ts : List Text) : List (Text × Nat) :=
  (dedupFirst ts).map (fun w => (w, ts.count w))

/-- The `for word, tf in term_frequencies_for_page.items()` loop of
`index_page_on_save`: look up or create a word id per distinct word,
producing `word_id_tf_map`. -/
def assignWordIds (v : Vocab) : List (Text × Nat) → Vocab × List (Nat × Nat)
  | [] => (v, [])
  | (w, c) :: rest =>
    let p := getOrCreateWordId v w
    let q := assignWordIds p.1 rest
    (q.1, (p.2, c) :: q.2)

/-- First loop of `update_inverted_index`: drop this page's postings from
every entry and delete entries that become empty. -/
def cleanIndex (idx : InvIndex) (pid : Nat) : InvIndex :=
  (idx.map (fun e => (e.1, e.2.filter (fun p => decide (p.pageId ≠ pid))))).filter
    (fun e => !e.2.isEmpty)

/-- Model of `inverted_index[word_id_str].append(...)`, creating the key at the end
of the dict when absent. -/
def dictAppendPosting : InvIndex → Nat → Posting → InvIndex
  | [], wid, post => [(wid, [post])]
  | e :: rest, wid, post =>
    if e.1 = wid then (e.1, e.2 ++ [post]) :: rest
    else e :: dictAppendPosting rest wid post

/-- Second loop of `update_inverted_index`: insert one posting per entry of
`word_id_tf_map`. -/
def insertPostings (idx : InvIndex) (pid : Nat) : List (Nat × Nat) → InvIndex
  | [] => idx
  | (wid, c) :: rest => insertPostings (dictAppendPosting idx wid ⟨pid, c⟩) pid rest

/-- Model of `update_inverted_index`: remove-then-insert all postings for `pid`. -/
def update_inverted_index (idx : InvIndex) (pid : Nat) (m : List (Nat × Nat)) : InvIndex :=
  insertPostings (cleanIndex idx pid) pid m

/-- Model of `remove_from_inverted_index`: strip `pid`'s postings, dropping entries
that become empty; the file is rewritten only when some posting was
actually removed (`changed`). -/
def remove_from_inverted_index (idx : InvIndex) (pid : Nat) : InvIndex :=
  let updated :=
    (idx.map (fun e => (e.1, e.2.filter (fun p => decide (p.pageId ≠ pid))))).filter
      (fun e => !e.2.isEmpty)
  if idx.any (fun e => e.2.any (fun p => decide (p.pageId = pid))) then updated else idx

/-- Model of `calculate_and_store_tfidf_vector` (the returned vector): df per word
from the current inverted index (falling back to 1), idf by the abstracted
`log`, weight `tf * idf`. -/
def documentFrequency (inv : InvIndex) (wid : Nat) : Nat :=
  match dictFind wid inv with
  | some ps => ps.length
  | none => 1

def calculate_tfidf_vector (log : ℚ → ℚ) (inv : InvIndex) (n : Nat)
    (m : List (Nat × Nat)) : TfVec :=
  if n = 0 then []
  else
    m.map (fun e =>
      let df := documentFrequency inv e.1
      let idf : ℚ := if 0 < df ∧ 0 < n then log ((n : ℚ) / (df : ℚ)) else 0
      (e.1, (e.2 : ℚ) * idf))

/-- Model of `index_page_on_save` on the indexer state, with the pandoc plain-text
extraction applied beforehand (so `plainBody` is what gets tokenized) and
`math.log` abstracted as `log`. -/
def index_page_on_save (log : ℚ → ℚ) (st : IndexState) (slug plainBody : Text) :
    IndexState :=
  let mp := getOrCreatePageId st.meta slug
  let tokens := tokenize_and_normalize plainBody
  let items := (counterItems tokens).filter (fun e => !e.1.isEmpty)
  let va := assignWordIds st.vocab items
  let inv2 := update_inverted_index st.inv mp.2 va.2
  let n := mp.1.slugToId.length
  let vec := calculate_tfidf_vector log inv2 n va.2
  { meta := mp.1, vocab := va.1, inv := inv2, vectors := dictSet st.vectors mp.2 vec }

/-- Model of `remove_tfidf_vector`: delete the page's vector when present. -/
def remove_tfidf_vector (vs : List (Nat × TfVec)) (pid : Nat) : List (Nat × TfVec) :=
  if (dictFind pid vs).isSome then vs.eraseP (fun e => decide (e.1 = pid)) else vs

/-- Model of `remove_page_meta`: pop the slug from `slug_to_id` and its id from
`id_to_slug`. -/
def remove_page_meta (m : PageMeta) (slug : Text) : PageMeta :=
  match dictFind slug m.slugToId with
  | some pid =>
    { m with
      slugToId := m.slugToId.eraseP (fun e => decide (e.1 = slug)),
      idToSlug := m.idToSlug.eraseP (fun e => decide (e.1 = pid)) }
  | none => m

/-- Model of `deindex_page_on_delete`: when the slug is known, strip its postings,
its TF-IDF vector and its metadata entries. -/
def deindex_page_on_delete (st : IndexState) (slug : Text) : IndexState :=
  match dictFind slug st.meta.slugToId with
  | none => st
  | some pid =>
    { meta := remove_page_meta st.meta slug,
      vocab := st.vocab,
      inv := remove_from_inverted_index st.inv pid,
      vectors := remove_tfidf_vector st.vectors pid }

/-- The postings stored under a word id (empty when the key is absent). -/
def lookupPostings (idx : InvIndex) (wid : Nat) : List Posting :=
  (dictFind wid idx).getD []

/-- How many postings for page `pid` the index holds under word id `wid`. -/
def postingCount (idx : InvIndex) (wid pid : Nat) : Nat :=
  (lookupPostings idx wid).countP (fun p => decide (p.pageId = pid))

/- ### Inverted-index counting lemmas -/

theorem dictFind_mem {κ ν : Type} [DecidableEq κ] {k : κ} {d : List (κ × ν)} {v : ν}
    (h : dictFind k d = some v) : (k, v) ∈ d := by
  induction d with
  | nil => exact absurd h (by simp [dictFind])
  | cons e rest ih =>
    by_cases he : e.1 = k
    · simp only [dictFind, he, if_true, Option.some.injEq] at h
      subst h
      subst he
      exact List.mem_cons_self _ _
    · simp only [dictFind, he, if_false] at h
      exact List.mem_cons_of_mem _ (ih h)

theorem dictFind_append {κ ν : Type} [DecidableEq κ] (k : κ) (d1 d2 : List (κ × ν)) :
    dictFind k (d1 ++ d2) =
      match dictFind k d1 with
      | some v => some v
      | none => dictFind k d2 := by
  induction d1 with
  | nil => rfl
  | cons e rest ih =>
    by_cases he : e.1 = k <;> simp [dictFind, he, ih]

theorem dictFind_eq_none_of_not_mem_keys {κ ν : Type} [DecidableEq κ] {k : κ} :
    ∀ {d : List (κ × ν)}, k ∉ d.map Prod.fst → dictFind k d = none := by
  intro d
  induction d with
  | nil => intro _; rfl
  | cons e rest ih =>
    intro h
    simp only [List.map_cons, List.mem_cons] at h
    push_neg at h
    have hne : e.1 ≠ k := fun he => h.1 he.symm
    simp only [dictFind, hne, if_false]
    exact ih h.2

/-- Removing the unique entry for a key makes lookup fail, given unique keys. -/
theorem dictFind_eraseP_self {κ ν : Type} [DecidableEq κ] {k : κ} :
    ∀ {d : List (κ × ν)}, (d.map Prod.fst).Nodup →
    dictFind k (d.eraseP (fun e => decide (e.1 = k))) = none := by
  intro d
  induction d with
  | nil => intro _; rfl
  | cons e rest ih =>
    intro hnd
    simp only [List.map_cons, List.nodup_cons] at hnd
    simp only [List.eraseP_cons]
    by_cases he : e.1 = k
    · simp only [he, decide_true_eq_true, cond_true]
      exact dictFind_eq_none_of_not_mem_keys (he ▸ hnd.1)
    · simp only [he, decide_false_eq_false, cond_false]
      simp only [dictFind, he, if_false]
      exact ih hnd.2

/-- After the cleaning loop, no posting for `pid` remains anywhere. -/
theorem cleanIndex_no_pid (idx : InvIndex) (pid : Nat) :
    ∀ e ∈ cleanIndex idx pid, ∀ p ∈ e.2, p.pageId ≠ pid := by
  intro e he p hp
  have he2 : e ∈ idx.map (fun e => (e.1, e.2.filter (fun p => decide (p.pageId ≠ pid)))) :=
    List.mem_of_mem_filter he
  rcases List.mem_map.mp he2 with ⟨e0, _, heq⟩
  have : p ∈ e0.2.filter (fun p => decide (p.pageId ≠ pid)) := by
    rw [← heq] at hp
    exact hp
  have := (List.mem_filter.mp this).2
  simpa using this

theorem postingCount_cleanIndex (idx : InvIndex) (pid wid : Nat) :
    postingCount (cleanIndex idx pid) wid pid = 0 := by
  unfold postingCount lookupPostings
  cases h : dictFind wid (cleanIndex idx pid) with
  | none => rfl
  | some ps =>
    simp only [Option.getD_some]
    rw [List.countP_eq_zero]
    intro p hp
    have := cleanIndex_no_pid idx pid (wid, ps) (dictFind_mem h) p hp
    simpa using this

theorem lookupPostings_dictAppend_self (idx : InvIndex) (wid : Nat) (post : Posting) :
    lookupPostings (dictAppendPosting idx wid post) wid =
      lookupPostings idx wid ++ [post] := by
  induction idx with
  | nil => simp [dictAppendPosting, lookupPostings, dictFind]
  | cons e rest ih =>
    by_cases he : e.1 = wid
    · simp [dictAppendPosting, he, lookupPostings, dictFind]
    · simp only [dictAppendPosting, he, if_false]
      simpa [lookupPostings, dictFind, he] using ih

theorem lookupPostings_dictAppend_other (idx : InvIndex) {wid wid' : Nat} (post : Posting)
    (h : wid' ≠ wid) :
    lookupPostings (dictAppendPosting idx wid post) wid' = lookupPostings idx wid' := by
  have hne : wid ≠ wid' := fun hh => h hh.symm
  induction idx with
  | nil => simp [dictAppendPosting, lookupPostings, dictFind, hne]
  | cons e rest ih =>
    by_cases he : e.1 = wid
    · simp [dictAppendPosting, he, lookupPostings, dictFind, hne]
    · simp only [dictAppendPosting, he, if_false]
      by_cases he2 : e.1 = wid'
      · simp [lookupPostings, dictFind, he2]
      · simpa [lookupPostings, dictFind, he2] using ih

theorem postingCount_dictAppend (idx : InvIndex) (wid wid' pid : Nat) (c : Nat) :
    postingCount (dictAppendPosting idx wid ⟨pid, c⟩) wid' pid =
      postingCount idx wid' pid + (if wid' = wid then 1 else 0) := by
  by_cases h : wid' = wid
  · subst h
    unfold postingCount
    rw [lookupPostings_dictAppend_self]
    simp [List.countP_append, List.countP_cons]
  · unfold postingCount
    rw [lookupPostings_dictAppend_other idx _ h]
    simp [h]

theorem postingCount_insertPostings (pid wid : Nat) :
    ∀ (m : List (Nat × Nat)) (idx : InvIndex), (m.map Prod.fst).Nodup →
    postingCount (insertPostings idx pid m) wid pid =
      postingCount idx wid pid + (if wid ∈ m.map Prod.fst then 1 else 0) := by
  intro m
  induction m with
  | nil => intro idx _; simp [insertPostings]
  | cons e rest ih =>
    intro idx hnd
    obtain ⟨w0, c⟩ := e
    simp only [List.map_cons, List.nodup_cons] at hnd
    show postingCount (insertPostings (dictAppendPosting idx w0 ⟨pid, c⟩) pid rest) wid pid = _
    rw [ih _ hnd.2, postingCount_dictAppend]
    by_cases h0 : wid = w0
    · subst h0
      have : wid ∉ rest.map Prod.fst := hnd.1
      simp [this]
    · simp only [List.map_cons, List.mem_cons]
      by_cases h1 : wid ∈ rest.map Prod.fst <;> simp [h0, h1]

/-- The core one-posting-per-word invariant of `update_inverted_index`. -/
theorem postingCount_update (idx : InvIndex) (pid wid : Nat) (m : List (Nat × Nat))
    (hnd : (m.map Prod.fst).Nodup) :
    postingCount (update_inverted_index idx pid m) wid pid =
      if wid ∈ m.map Prod.fst then 1 else 0 := by
  unfold update_inverted_index
  rw [postingCount_insertPostings pid wid m _ hnd, postingCount_cleanIndex]
  exact Nat.zero_add _

/- ### Vocabulary well-formedness -/

/-- Invariants of the vocabulary dict maintained by `get_or_create_word_id`:
ids are below `next_word_id` and no two words share an id. -/
def VocabWF (v : Vocab) : Prop :=
  (∀ e ∈ v.wordToId, e.2 < v.nextWordId) ∧
  (∀ e1 ∈ v.wordToId, ∀ e2 ∈ v.wordToId, e1.2 = e2.2 → e1.1 = e2.1)

instance (v : Vocab) : Decidable (VocabWF v) := by
  unfold VocabWF
  infer_instance

/-- The id the vocabulary assigns to a word (0 when absent). -/
def wordIdOf (v : Vocab) (w : Text) : Nat := (dictFind w v.wordToId).getD 0

theorem getOrCreateWordId_spec (v : Vocab) (w : Text) (hwf : VocabWF v) :
    VocabWF (getOrCreateWordId v w).1 ∧
    dictFind w (getOrCreateWordId v w).1.wordToId = some (getOrCreateWordId v w).2 ∧
    (∀ u i, dictFind u v.wordToId = some i →
      dictFind u (getOrCreateWordId v w).1.wordToId = some i) := by
  unfold getOrCreateWordId
  cases h : dictFind w v.wordToId with
  | some wid => exact ⟨hwf, h, fun u i hu => hu⟩
  | none =>
    simp only
    refine ⟨⟨?_, ?_⟩, ?_, ?_⟩
    · intro e he
      rcases List.mem_append.mp he with he | he
      · exact Nat.lt_succ_of_lt (hwf.1 e he)
      · simp only [List.mem_singleton] at he
        subst he
        exact Nat.lt_succ_self _
    · intro e1 he1 e2 he2 hid
      rcases List.mem_append.mp he1 with he1 | he1 <;>
        rcases List.mem_append.mp he2 with he2 | he2
      · exact hwf.2 e1 he1 e2 he2 hid
      · simp only [List.mem_singleton] at he2
        subst he2
        exact absurd (hid ▸ hwf.1 e1 he1) (Nat.lt_irrefl _)
      · simp only [List.mem_singleton] at he1
        subst he1
        exact absurd (hid ▸ hwf.1 e2 he2) (Nat.lt_irrefl _)
      · simp only [List.mem_singleton] at he1 he2
        subst he1; subst he2; rfl
    · rw [dictFind_append, h]
      simp [dictFind]
    · intro u i hu
      rw [dictFind_append, hu]

theorem assignWordIds_spec :
    ∀ (items : List (Text × Nat)) (v : Vocab), VocabWF v → (items.map Prod.fst).Nodup →
    VocabWF (assignWordIds v items).1 ∧
    (∀ u i, dictFind u v.wordToId = some i →
      dictFind u (assignWordIds v items).1.wordToId = some i) ∧
    (∀ e ∈ items, (dictFind e.1 (assignWordIds v items).1.wordToId).isSome) ∧
    (assignWordIds v items).2 =
      items.map (fun e => (wordIdOf (assignWordIds v items).1 e.1, e.2)) ∧
    ((assignWordIds v items).2.map Prod.fst).Nodup := by
  intro items
  induction items with
  | nil =>
    intro v hwf _
    exact ⟨hwf, fun u i h => h, by simp, rfl, List.nodup_nil⟩
  | cons e rest ih =>
    intro v hwf hnd
    obtain ⟨w, c⟩ := e
    simp only [List.map_cons, List.nodup_cons] at hnd
    have gspec := getOrCreateWordId_spec v w hwf
    have ihspec := ih (getOrCreateWordId v w).1 gspec.1 hnd.2
    have hstep :
        assignWordIds v ((w, c) :: rest) =
          ((assignWordIds (getOrCreateWordId v w).1 rest).1,
            ((getOrCreateWordId v w).2, c) :: (assignWordIds (getOrCreateWordId v w).1 rest).2) :=
      rfl
    have hwfind : dictFind w (assignWordIds (getOrCreateWordId v w).1 rest).1.wordToId =
        some (getOrCreateWordId v w).2 :=
      ihspec.2.1 w _ gspec.2.1
    have hwidOf : wordIdOf (assignWordIds (getOrCreateWordId v w).1 rest).1 w =
        (getOrCreateWordId v w).2 := by
      unfold wordIdOf
      rw [hwfind]
      rfl
    rw [hstep]
    refine ⟨ihspec.1, ?_, ?_, ?_, ?_⟩
    · intro u i hu
      exact ihspec.2.1 u i (gspec.2.2 u i hu)
    · intro e' he'
      rcases List.mem_cons.mp he' with he' | he'
      · subst he'
        simp only
        rw [hwfind]
        rfl
      · exact ihspec.2.2.1 e' he'
    · simp only [List.map_cons]
      rw [hwidOf]
      exact congrArg (((getOrCreateWordId v w).2, c) :: ·) ihspec.2.2.2.1
    · simp only [List.map_cons, List.nodup_cons]
      refine ⟨?_, ihspec.2.2.2.2⟩
      intro hmem
      have hkeys : (assignWordIds (getOrCreateWordId v w).1 rest).2.map Prod.fst =
          rest.map (fun e => wordIdOf (assignWordIds (getOrCreateWordId v w).1 rest).1 e.1) := by
        rw [ihspec.2.2.2.1]
        simp [List.map_map, Function.comp]
      rw [hkeys] at hmem
      rcases List.mem_map.mp hmem with ⟨e', he', heq⟩
      have hsome := ihspec.2.2.1 e' he'
      rcases Option.isSome_iff_exists.mp hsome with ⟨j, hj⟩
      have : wordIdOf (assignWordIds (getOrCreateWordId v w).1 rest).1 e'.1 = j := by
        unfold wordIdOf
        rw [hj]
        rfl
      have hjw : j = (getOrCreateWordId v w).2 := by rw [← this, heq]
      subst hjw
      have hmem1 := dictFind_mem hj
      have hmem2 := dictFind_mem hwfind
      have := ihspec.1.2 _ hmem1 _ hmem2 rfl
      simp only at this
      exact hnd.1 (this ▸ List.mem_map_of_mem Prod.fst he')

/- ### Tokenizer and Counter lemmas -/

/-- Word runs are never empty (`\b\w+\b` matches at least one character). -/
theorem wordRunsAux_ne_nil :
    ∀ (l : Text) (cur : Text) (w : Text), w ∈ wordRunsAux cur l → w ≠ [] := by
  intro l
  induction l with
  | nil =>
    intro cur w hw
    simp only [wordRunsAux] at hw
    by_cases hc : cur.isEmpty
    · simp [hc] at hw
    · simp only [hc, Bool.false_eq_true, if_false, List.mem_singleton] at hw
      subst hw
      intro hrev
      rw [List.reverse_eq_nil_iff] at hrev
      subst hrev
      simp at hc
  | cons c cs ih =>
    intro cur w hw
    simp only [wordRunsAux] at hw
    by_cases hword : isWordChar c
    · exact ih _ w (by simpa [hword] using hw)
    · simp only [hword, Bool.false_eq_true, if_false] at hw
      by_cases hc : cur.isEmpty
      · exact ih _ w (by simpa [hc] using hw)
      · simp only [hc, Bool.false_eq_true, if_false, List.mem_cons] at hw
        rcases hw with hw | hw
        · subst hw
          intro hrev
          rw [List.reverse_eq_nil_iff] at hrev
          subst hrev
          simp at hc
        · exact ih _ w hw

theorem tokenize_ne_nil {text : Text} {w : Text} (h : w ∈ tokenize_and_normalize text) :
    w ≠ [] :=
  wordRunsAux_ne_nil _ [] w h

theorem dedupFirstAux_spec :
    ∀ (l : List Text) (seen : List Text),
      (∀ x ∈ dedupFirstAux seen l, x ∉ seen ∧ x ∈ l) ∧ (dedupFirstAux seen l).Nodup := by
  intro l
  induction l with
  | nil => intro seen; exact ⟨by simp [dedupFirstAux], List.nodup_nil⟩
  | cons x xs ih =>
    intro seen
    by_cases hx : x ∈ seen
    · simp only [dedupFirstAux, hx, if_true]
      refine ⟨?_, (ih seen).2⟩
      intro y hy
      exact ⟨((ih seen).1 y hy).1, List.mem_cons_of_mem _ ((ih seen).1 y hy).2⟩
    · simp only [dedupFirstAux, hx, if_false]
      constructor
      · intro y hy
        rcases List.mem_cons.mp hy with hy | hy
        · subst hy
          exact ⟨hx, List.mem_cons_self _ _⟩
        · have := (ih (x :: seen)).1 y hy
          exact ⟨fun hc => this.1 (List.mem_cons_of_mem _ hc),
            List.mem_cons_of_mem _ this.2⟩
      · rw [List.nodup_cons]
        refine ⟨?_, (ih (x :: seen)).2⟩
        intro hc
        exact ((ih (x :: seen)).1 x hc).1 (List.mem_cons_self _ _)

theorem dedupFirst_nodup (l : List Text) : (dedupFirst l).Nodup :=
  (dedupFirstAux_spec l []).2

theorem mem_of_mem_dedupFirst {l : List Text} {x : Text} (h : x ∈ dedupFirst l) : x ∈ l :=
  ((dedupFirstAux_spec l []).1 x h).2

theorem counterItems_keys (ts : List Text) :
    (counterItems ts).map Prod.fst = dedupFirst ts := by
  unfold counterItems
  rw [List.map_map]
  exact map_id_of_forall (by simp [Function.comp])

/- ### Claim C5 -/

/-- Claim C5: after `index_page_on_save`, the inverted index holds exactly
one posting for this page's id under the id of every distinct word of the
(plain-text) body, and zero postings for this page's id under any other
word id — stale postings from a prior version of the page included. -/
theorem index_page_inverted_index_invariant (log : ℚ → ℚ) (st : IndexState)
    (slug plainBody : Text) (hwf : VocabWF st.vocab) :
    (∀ w ∈ dedupFirst (tokenize_and_normalize plainBody),
      postingCount (index_page_on_save log st slug plainBody).inv
        (wordIdOf (index_page_on_save log st slug plainBody).vocab w)
        (getOrCreatePageId st.meta slug).2 = 1) ∧
    (∀ wid : Nat,
      wid ∉ (dedupFirst (tokenize_and_normalize plainBody)).map
        (wordIdOf (index_page_on_save log st slug plainBody).vocab) →
      postingCount (index_page_on_save log st slug plainBody).inv wid
        (getOrCreatePageId st.meta slug).2 = 0) := by
  have htok : ∀ w ∈ dedupFirst (tokenize_and_normalize plainBody), w ≠ [] :=
    fun w hw => tokenize_ne_nil (mem_of_mem_dedupFirst hw)
  have hfil :
      (counterItems (tokenize_and_normalize plainBody)).filter (fun e => !e.1.isEmpty) =
        counterItems (tokenize_and_normalize plainBody) := by
    refine List.filter_eq_self.mpr ?_
    intro e he
    have : e.1 ∈ (counterItems (tokenize_and_normalize plainBody)).map Prod.fst :=
      List.mem_map_of_mem Prod.fst he
    rw [counterItems_keys] at this
    have hne := htok e.1 this
    cases hq : e.1 with
    | nil => exact absurd hq hne
    | cons a as => rfl
  have hinv : (index_page_on_save log st slug plainBody).inv =
      update_inverted_index st.inv (getOrCreatePageId st.meta slug).2
        (assignWordIds st.vocab
          ((counterItems (tokenize_and_normalize plainBody)).filter
            (fun e => !e.1.isEmpty))).2 := rfl
  have hvoc : (index_page_on_save log st slug plainBody).vocab =
      (assignWordIds st.vocab
        ((counterItems (tokenize_and_normalize plainBody)).filter
          (fun e => !e.1.isEmpty))).1 := rfl
  rw [hfil] at hinv hvoc
  have hndk : ((counterItems (tokenize_and_normalize plainBody)).map Prod.fst).Nodup := by
    rw [counterItems_keys]
    exact dedupFirst_nodup _
  have aspec := assignWordIds_spec (counterItems (tokenize_and_normalize plainBody))
    st.vocab hwf hndk
  have hmkeys :
      ((assignWordIds st.vocab (counterItems (tokenize_and_normalize plainBody))).2.map
        Prod.fst) =
        (dedupFirst (tokenize_and_normalize plainBody)).map
          (wordIdOf (index_page_on_save log st slug plainBody).vocab) := by
    rw [aspec.2.2.2.1]
    rw [List.map_map]
    rw [hvoc, ← counterItems_keys (tokenize_and_normalize plainBody), List.map_map]
    rfl
  constructor
  · intro w hw
    rw [hinv, postingCount_update _ _ _ _ aspec.2.2.2.2, hmkeys]
    rw [if_pos (List.mem_map_of_mem _ hw)]
  · intro wid hwid
    rw [hinv, postingCount_update _ _ _ _ aspec.2.2.2.2, hmkeys]
    rw [if_neg hwid]

/-- A fresh indexer state: the empty data files the plugin creates. -/
def emptyIndexState : IndexState :=
  { meta := { nextPageId := 0, slugToId := [], idToSlug := [] },
    vocab := { nextWordId := 0, wordToId := [], idToWord := [] },
    inv := [],
    vectors := [] }

/-- Witness for C5: indexing the page `"alpha"` with body `"cat dog cat"`
into a fresh state. -/
theorem index_page_inverted_index_invariant_witness :
    VocabWF emptyIndexState.vocab ∧
    ((∀ w ∈ dedupFirst (tokenize_and_normalize (str ("cat dog cat"))),
      postingCount (index_page_on_save (fun _ => 0) emptyIndexState (str ("alpha"))
          (str ("cat dog cat"))).inv
        (wordIdOf (index_page_on_save (fun _ => 0) emptyIndexState (str ("alpha"))
          (str ("cat dog cat"))).vocab w)
        (getOrCreatePageId emptyIndexState.meta (str ("alpha"))).2 = 1) ∧
    (∀ wid : Nat,
      wid ∉ (dedupFirst (tokenize_and_normalize (str ("cat dog cat")))).map
        (wordIdOf (index_page_on_save (fun _ => 0) emptyIndexState (str ("alpha"))
          (str ("cat dog cat"))).vocab) →
      postingCount (index_page_on_save (fun _ => 0) emptyIndexState (str ("alpha"))
          (str ("cat dog cat"))).inv wid
        (getOrCreatePageId emptyIndexState.meta (str ("alpha"))).2 = 0)) :=
  ⟨by decide,
    index_page_inverted_index_invariant (fun _ => 0) emptyIndexState (str ("alpha"))
      (str ("cat dog cat")) (by decide)⟩

/- ### Claim C6 -/

/-- Claim C6: after `deindex_page_on_delete` for a previously indexed slug,
no posting in the inverted index references the page's id, its TF-IDF
vector is gone, and both its slug-to-id and id-to-slug metadata entries
are gone. -/
theorem deindex_page_invariant (st : IndexState) (slug : Text) (pid : Nat)
    (hfound : dictFind slug st.meta.slugToId = some pid)
    (hnd1 : (st.meta.slugToId.map Prod.fst).Nodup)
    (hnd2 : (st.meta.idToSlug.map Prod.fst).Nodup)
    (hnd3 : (st.vectors.map Prod.fst).Nodup) :
    (∀ e ∈ (deindex_page_on_delete st slug).inv, ∀ p ∈ e.2, p.pageId ≠ pid) ∧
    dictFind pid (deindex_page_on_delete st slug).vectors = none ∧
    dictFind slug (deindex_page_on_delete st slug).meta.slugToId = none ∧
    dictFind pid (deindex_page_on_delete st slug).meta.idToSlug = none := by
  have hd : deindex_page_on_delete st slug =
      { meta := remove_page_meta st.meta slug,
        vocab := st.vocab,
        inv := remove_from_inverted_index st.inv pid,
        vectors := remove_tfidf_vector st.vectors pid } := by
    unfold deindex_page_on_delete
    rw [hfound]
  rw [hd]
  refine ⟨?_, ?_, ?_, ?_⟩
  · intro e he p hp
    unfold remove_from_inverted_index at he
    by_cases hch :
        (st.inv.any (fun e => e.2.any (fun p => decide (p.pageId = pid)))) = true
    · rw [if_pos hch] at he
      have he2 : e ∈ st.inv.map
          (fun e => (e.1, e.2.filter (fun p => decide (p.pageId ≠ pid)))) :=
        List.mem_of_mem_filter he
      rcases List.mem_map.mp he2 with ⟨e0, _, heq⟩
      have hpf : p ∈ e0.2.filter (fun p => decide (p.pageId ≠ pid)) := by
        rw [← heq] at hp
        exact hp
      have := (List.mem_filter.mp hpf).2
      simpa using this
    · rw [if_neg hch] at he
      rw [Bool.not_eq_true, List.any_eq_false] at hch
      have h2 := hch e he
      rw [Bool.not_eq_true, List.any_eq_false] at h2
      have h3 := h2 p hp
      simpa using h3
  · unfold remove_tfidf_vector
    by_cases hv : (dictFind pid st.vectors).isSome = true
    · rw [if_pos hv]
      exact dictFind_eraseP_self hnd3
    · rw [if_neg hv]
      exact Option.not_isSome_iff_eq_none.mp hv
  · unfold remove_page_meta
    rw [hfound]
    exact dictFind_eraseP_self hnd1
  · unfold remove_page_meta
    rw [hfound]
    exact dictFind_eraseP_self hnd2

/-- An indexer state holding one indexed page, for the C6 witness. -/
def oneIndexedPageState : IndexState :=
  { meta := { nextPageId := 1, slugToId := [(str ("alpha"), 0)], idToSlug := [(0, str ("alpha"))] },
    vocab := { nextWordId := 1, wordToId := [(str ("cat"), 0)], idToWord := [(0, str ("cat"))] },
    inv := [(0, [{ pageId := 0, tf := 2 }])],
    vectors := [(0, [(0, (1 : ℚ))])] }

/-- Witness for C6 at a concrete one-page state. -/
theorem deindex_page_invariant_witness :
    (dictFind (str ("alpha")) oneIndexedPageState.meta.slugToId = some 0 ∧
      (oneIndexedPageState.meta.slugToId.map Prod.fst).Nodup ∧
      (oneIndexedPageState.meta.idToSlug.map Prod.fst).Nodup ∧
      (oneIndexedPageState.vectors.map Prod.fst).Nodup) ∧
    ((∀ e ∈ (deindex_page_on_delete oneIndexedPageState (str ("alpha"))).inv,
        ∀ p ∈ e.2, p.pageId ≠ 0) ∧
      dictFind 0 (deindex_page_on_delete oneIndexedPageState (str ("alpha"))).vectors = none ∧
      dictFind (str ("alpha"))
        (deindex_page_on_delete oneIndexedPageState (str ("alpha"))).meta.slugToId = none ∧
      dictFind 0 (deindex_page_on_delete oneIndexedPageState (str ("alpha"))).meta.idToSlug =
        none) :=
  ⟨⟨by decide, by decide, by decide, by decide⟩,
    deindex_page_invariant oneIndexedPageState (str ("alpha")) 0 (by decide) (by decide)
      (by decide) (by decide)⟩

/-! ## Search plugin (`plugins/search_plugin.py`)

`perform_search` reads the page-meta, vocabulary and inverted-index files,
tokenizes the query with the same regex as the indexer, drops
out-of-vocabulary terms, accumulates raw term frequencies per page, and
sorts descending by score with Python's stable sort.  Title resolution
(reading each page file's front-matter) and URL building are external
side effects and are not part of the model; a result carries the page id,
slug and score. -/

/-- Model of `tokenize_and_normalize_query` from `search_plugin.py`; its body is
the same regex pipeline as the indexer's `tokenize_and_normalize`. -/
def tokenize_and_normalize_query (q : Text) : List Text :=
  wordRunsAux [] (q.map lowerChar)

/-- Model of `[vocabulary["word_to_id"][term] for term in query_terms if term in ...]`:
map the query terms to vocabulary ids, dropping out-of-vocabulary terms. -/
def queryWordIds (v : Vocab) (terms : List Text) : List Nat :=
  terms.filterMap (fun t => dictFind t v.wordToId)

structure SearchResult where
  pid : Nat
  slug : Text
  score : Nat
deriving DecidableEq, Repr

/-- Model of `page_scores[page_id] += tf` on a `defaultdict` model: first access
appends the key at the end. -/
def addScore : List (Nat × Nat) → Nat → Nat → List (Nat × Nat)
  | [], pid, tfv => [(pid, tfv)]
  | e :: rest, pid, tfv =>
    if e.1 = pid then (e.1, e.2 + tfv) :: rest else e :: addScore rest pid tfv

/-- The inner `for posting in inverted_index[word_id_str]` loop. -/
def scorePostingsList (scores : List (Nat × Nat)) : List Posting → List (Nat × Nat)
  | [] => scores
  | p :: ps => scorePostingsList (addScore scores p.pageId p.tf) ps

/-- The outer `for word_id in query_word_ids` loop. -/
def buildScores (inv : InvIndex) : List Nat → List (Nat × Nat) → List (Nat × Nat)
  | [], scores => scores
  | wid :: rest, scores =>
    match dictFind wid inv with
    | some ps => buildScores inv rest (scorePostingsList scores ps)
    | none => buildScores inv rest scores

/-- The results loop: keep pages known to `id_to_slug`, in score-dict
insertion order. -/
def resultsFromScores (meta : PageMeta) (scores : List (Nat × Nat)) : List SearchResult :=
  scores.filterMap (fun e =>
    (dictFind e.1 meta.idToSlug).map (fun slug => { pid := e.1, slug := slug, score := e.2 }))

/-- Stable insertion for descending order: an element is placed before the
first list element whose score is less than or equal to its own, so
earlier elements stay before later ones on ties — extensionally the
behaviour of Python's stable `sort(key=..., reverse=True)`. -/
def insertByScore (x : SearchResult) : List SearchResult → List SearchResult
  | [] => [x]
  | y :: ys => if y.score ≤ x.score then x :: y :: ys else y :: insertByScore x ys

def sortByScoreDesc : List SearchResult → List SearchResult
  | [] => []
  | x :: xs => insertByScore x (sortByScoreDesc xs)

/-- The result list as built before the final sort. -/
def resultsUnsorted (meta : PageMeta) (vocab : Vocab) (inv : InvIndex) (q : Text) :
    List SearchResult :=
  resultsFromScores meta
    (buildScores inv (queryWordIds vocab (tokenize_and_normalize_query q)) [])

/-- Model of `perform_search`, including its early empty-result returns. -/
def perform_search (meta : PageMeta) (vocab : Vocab) (inv : InvIndex) (q : Text) :
    List SearchResult :=
  if q.isEmpty then []
  else if (tokenize_and_normalize_query q).isEmpty then []
  else if (queryWordIds vocab (tokenize_and_normalize_query q)).isEmpty then []
  else if (buildScores inv (queryWordIds vocab (tokenize_and_normalize_query q)) []).isEmpty
    then []
  else sortByScoreDesc (resultsUnsorted meta vocab inv q)

/-- The specified score of a page: the sum, over all matched word ids, of
the raw term frequencies of that page's postings. -/
def scoreSpec (inv : InvIndex) (ids : List Nat) (pid : Nat) : Nat :=
  (ids.map (fun wid =>
    (((lookupPostings inv wid).filter (fun p => decide (p.pageId = pid))).map Posting.tf).sum)).sum

/-- The running score of a page in the scores dict (0 when absent). -/
def lookupScore (scores : List (Nat × Nat)) (pid : Nat) : Nat :=
  (dictFind pid scores).getD 0

/- ### Score-accumulation lemmas -/

theorem lookupScore_addScore (s : List (Nat × Nat)) (pid0 tfv pid : Nat) :
    lookupScore (addScore s pid0 tfv) pid =
      lookupScore s pid + (if pid = pid0 then tfv else 0) := by
  induction s with
  | nil =>
    by_cases h : pid = pid0
    · subst h; simp [addScore, lookupScore, dictFind]
    · have h' : pid0 ≠ pid := fun hh => h hh.symm
      simp [addScore, lookupScore, dictFind, h', h]
  | cons e rest ih =>
    obtain ⟨k, val⟩ := e
    by_cases he : k = pid0
    · subst he
      simp only [addScore, if_pos rfl]
      by_cases hp : k = pid
      · subst hp
        simp [lookupScore, dictFind]
      · have h2 : ¬(pid = k) := fun hh => hp hh.symm
        simp [lookupScore, dictFind, hp, h2]
    · simp only [addScore, he, if_false]
      by_cases hp : k = pid
      · subst hp
        simp [lookupScore, dictFind, he]
      · simp only [lookupScore, dictFind, hp, if_false]
        exact ih

theorem lookupScore_scorePostingsList (ps : List Posting) :
    ∀ (s : List (Nat × Nat)) (pid : Nat),
    lookupScore (scorePostingsList s ps) pid =
      lookupScore s pid + ((ps.filter (fun p => decide (p.pageId = pid))).map Posting.tf).sum := by
  induction ps with
  | nil =>
    intro s pid
    simp only [scorePostingsList, List.filter_nil, List.map_nil, List.sum_nil]
    omega
  | cons p ps ih =>
    intro s pid
    rw [show scorePostingsList s (p :: ps) = scorePostingsList (addScore s p.pageId p.tf) ps
      from rfl]
    rw [ih, lookupScore_addScore]
    by_cases hp : p.pageId = pid
    · subst hp
      rw [if_pos rfl]
      rw [List.filter_cons, if_pos (by simp)]
      simp only [List.map_cons, List.sum_cons]
      omega
    · have h2 : ¬(pid = p.pageId) := fun hh => hp hh.symm
      rw [if_neg h2]
      rw [List.filter_cons, if_neg (by simpa using hp)]
      omega

theorem lookupScore_buildScores (inv : InvIndex) :
    ∀ (ids : List Nat) (s : List (Nat × Nat)) (pid : Nat),
    lookupScore (buildScores inv ids s) pid = lookupScore s pid + scoreSpec inv ids pid := by
  intro ids
  induction ids with
  | nil => intro s pid; simp [buildScores, scoreSpec]
  | cons wid rest ih =>
    intro s pid
    simp only [buildScores]
    cases h : dictFind wid inv with
    | some ps =>
      rw [ih, lookupScore_scorePostingsList]
      have : lookupPostings inv wid = ps := by
        unfold lookupPostings
        rw [h]
        rfl
      simp only [scoreSpec, List.map_cons, List.sum_cons, this]
      omega
    | none =>
      rw [ih]
      have : lookupPostings inv wid = [] := by
        unfold lookupPostings
        rw [h]
        rfl
      simp only [scoreSpec, List.map_cons, List.sum_cons, this]
      simp [scoreSpec]

/- ### Scores-dict key uniqueness -/

theorem addScore_keys (s : List (Nat × Nat)) (pid tfv : Nat) :
    (addScore s pid tfv).map Prod.fst =
      if pid ∈ s.map Prod.fst then s.map Prod.fst else s.map Prod.fst ++ [pid] := by
  induction s with
  | nil => simp [addScore]
  | cons e rest ih =>
    by_cases he : e.1 = pid
    · simp [addScore, he]
    · have : ¬(pid = e.1) := fun hh => he hh.symm
      simp only [addScore, he, if_false, List.map_cons, ih, List.mem_cons, this,
        false_or]
      by_cases hm : pid ∈ rest.map Prod.fst <;> simp [hm]

theorem addScore_keys_nodup {s : List (Nat × Nat)} (h : (s.map Prod.fst).Nodup)
    (pid tfv : Nat) : ((addScore s pid tfv).map Prod.fst).Nodup := by
  rw [addScore_keys]
  by_cases hm : pid ∈ s.map Prod.fst
  · simpa [hm] using h
  · simp only [hm, if_false]
    simp [List.nodup_append, h, hm]

theorem scorePostingsList_keys_nodup (ps : List Posting) :
    ∀ {s : List (Nat × Nat)}, (s.map Prod.fst).Nodup →
    ((scorePostingsList s ps).map Prod.fst).Nodup := by
  induction ps with
  | nil => intro s h; exact h
  | cons p ps ih =>
    intro s h
    exact ih (addScore_keys_nodup h p.pageId p.tf)

theorem buildScores_keys_nodup (inv : InvIndex) :
    ∀ (ids : List Nat) {s : List (Nat × Nat)}, (s.map Prod.fst).Nodup →
    ((buildScores inv ids s).map Prod.fst).Nodup := by
  intro ids
  induction ids with
  | nil => intro s h; exact h
  | cons wid rest ih =>
    intro s h
    simp only [buildScores]
    cases hf : dictFind wid inv with
    | some ps => exact ih (scorePostingsList_keys_nodup ps h)
    | none => exact ih h

theorem lookupScore_of_mem {s : List (Nat × Nat)} (hnd : (s.map Prod.fst).Nodup)
    {pid sc : Nat} (h : (pid, sc) ∈ s) : lookupScore s pid = sc := by
  induction s with
  | nil => simp at h
  | cons e rest ih =>
    rcases List.mem_cons.mp h with h1 | h1
    · rw [← h1]
      simp [lookupScore, dictFind]
    · simp only [List.map_cons, List.nodup_cons] at hnd
      have hne : e.1 ≠ pid := by
        intro he
        exact hnd.1 (he ▸ List.mem_map_of_mem Prod.fst h1)
      simp only [lookupScore, dictFind, hne, if_false]
      exact ih hnd.2 h1

/- ### Sorting lemmas -/

theorem mem_insertByScore {a x : SearchResult} :
    ∀ {l : List SearchResult}, a ∈ insertByScore x l ↔ a = x ∨ a ∈ l := by
  intro l
  induction l with
  | nil => simp [insertByScore]
  | cons y ys ih =>
    by_cases h : y.score ≤ x.score
    · simp [insertByScore, h, List.mem_cons]
    · simp only [insertByScore, h, if_false, List.mem_cons, ih]
      tauto

theorem mem_sortByScoreDesc {a : SearchResult} :
    ∀ {l : List SearchResult}, a ∈ sortByScoreDesc l ↔ a ∈ l := by
  intro l
  induction l with
  | nil => simp [sortByScoreDesc]
  | cons x xs ih =>
    simp only [sortByScoreDesc, mem_insertByScore, ih, List.mem_cons]

theorem sorted_insertByScore {x : SearchResult} :
    ∀ {l : List SearchResult}, l.Pairwise (fun a b => b.score ≤ a.score) →
    (insertByScore x l).Pairwise (fun a b => b.score ≤ a.score) := by
  intro l
  induction l with
  | nil => intro _; simp [insertByScore]
  | cons y ys ih =>
    intro h
    rw [List.pairwise_cons] at h
    by_cases hle : y.score ≤ x.score
    · simp only [insertByScore, hle, if_true]
      rw [List.pairwise_cons]
      refine ⟨?_, List.pairwise_cons.mpr h⟩
      intro b hb
      rcases List.mem_cons.mp hb with hb | hb
      · subst hb; exact hle
      · exact le_trans (h.1 b hb) hle
    · simp only [insertByScore, hle, if_false]
      rw [List.pairwise_cons]
      refine ⟨?_, ih h.2⟩
      intro b hb
      rcases mem_insertByScore.mp hb with hb | hb
      · subst hb; omega
      · exact h.1 b hb

theorem sorted_sortByScoreDesc (l : List SearchResult) :
    (sortByScoreDesc l).Pairwise (fun a b => b.score ≤ a.score) := by
  induction l with
  | nil => simp [sortByScoreDesc]
  | cons x xs ih => exact sorted_insertByScore ih

theorem filter_insertByScore (x : SearchResult) (c : Nat) :
    ∀ (l : List SearchResult),
    (insertByScore x l).filter (fun r => decide (r.score = c)) =
      if x.score = c then x :: l.filter (fun r => decide (r.score = c))
      else l.filter (fun r => decide (r.score = c)) := by
  intro l
  induction l with
  | nil =>
    by_cases h : x.score = c <;> simp [insertByScore, List.filter, h]
  | cons y ys ih =>
    by_cases hle : y.score ≤ x.score
    · simp only [insertByScore, hle, if_true]
      by_cases h : x.score = c <;> simp [List.filter_cons, h]
    · simp only [insertByScore, hle, if_false]
      by_cases hy : y.score = c
      · have hx : ¬(x.score = c) := by omega
        simp [List.filter_cons, hy, hx, ih]
      · simp [List.filter_cons, hy, ih]

/-- Python's sort is stable: among results with equal score, the pre-sort
(insertion) order is preserved. -/
theorem filter_sortByScoreDesc (c : Nat) :
    ∀ (l : List SearchResult),
    (sortByScoreDesc l).filter (fun r => decide (r.score = c)) =
      l.filter (fun r => decide (r.score = c)) := by
  intro l
  induction l with
  | nil => rfl
  | cons x xs ih =>
    show (insertByScore x (sortByScoreDesc xs)).filter _ = _
    rw [filter_insertByScore, ih]
    by_cases h : x.score = c <;> simp [List.filter_cons, h]

/-- Two pages `"cat dog"` and `"dog bird"` indexed into a fresh state, for
the search example. -/
def searchExampleState : IndexState :=
  index_page_on_save (fun _ => 0)
    (index_page_on_save (fun _ => 0) emptyIndexState (str ("page-one")) (str ("cat dog")))
    (str ("page-two")) (str ("dog bird"))

/-- Claim C7: query terms are tokenized exactly as during indexing;
out-of-vocabulary terms are dropped; every returned result's score is the
sum of the raw term frequencies of the matched word-ids' postings for
that page; results are sorted descending by score; ties keep the
insertion order of the pre-sort result list; and concretely, with pages
`"cat dog"` and `"dog bird"` indexed, searching `"dog"` returns both
pages, each with score 1, in insertion order. -/
theorem search_scoring :
    (∀ q : Text, tokenize_and_normalize_query q = tokenize_and_normalize q) ∧
    (∀ (v : Vocab) (pre post : List Text) (t : Text),
      dictFind t v.wordToId = none →
      queryWordIds v (pre ++ t :: post) = queryWordIds v (pre ++ post)) ∧
    (∀ (pm : PageMeta) (v : Vocab) (inv : InvIndex) (q : Text) (r : SearchResult),
      r ∈ perform_search pm v inv q →
      r.score = scoreSpec inv (queryWordIds v (tokenize_and_normalize_query q)) r.pid) ∧
    (∀ (pm : PageMeta) (v : Vocab) (inv : InvIndex) (q : Text),
      (perform_search pm v inv q).Pairwise (fun a b => b.score ≤ a.score)) ∧
    (∀ (pm : PageMeta) (v : Vocab) (inv : InvIndex) (q : Text) (c : Nat),
      (perform_search pm v inv q).filter (fun r => decide (r.score = c)) =
        (resultsUnsorted pm v inv q).filter (fun r => decide (r.score = c))) ∧
    (perform_search searchExampleState.meta searchExampleState.vocab
        searchExampleState.inv (str ("dog")) =
      [{ pid := 0, slug := str ("page-one"), score := 1 },
       { pid := 1, slug := str ("page-two"), score := 1 }]) := by
  have hqid : ∀ (pm : PageMeta) (v : Vocab) (inv : InvIndex) (q : Text),
      ¬(q.isEmpty = true) → ¬((tokenize_and_normalize_query q).isEmpty = true) →
      ¬((queryWordIds v (tokenize_and_normalize_query q)).isEmpty = true) →
      ¬((buildScores inv (queryWordIds v (tokenize_and_normalize_query q)) []).isEmpty
        = true) →
      perform_search pm v inv q = sortByScoreDesc (resultsUnsorted pm v inv q) := by
    intro pm v inv q h1 h2 h3 h4
    unfold perform_search
    rw [if_neg h1, if_neg h2, if_neg h3, if_neg h4]
  have hempty : ∀ (pm : PageMeta) (v : Vocab) (inv : InvIndex) (q : Text),
      (q.isEmpty = true) ∨ ((tokenize_and_normalize_query q).isEmpty = true) ∨
      ((queryWordIds v (tokenize_and_normalize_query q)).isEmpty = true) ∨
      ((buildScores inv (queryWordIds v (tokenize_and_normalize_query q)) []).isEmpty
        = true) →
      resultsUnsorted pm v inv q = [] := by
    intro pm v inv q h
    unfold resultsUnsorted
    rcases h with h | h | h | h
    · rw [List.isEmpty_iff] at h
      subst h
      rfl
    · rw [List.isEmpty_iff] at h
      rw [h]
      rfl
    · rw [List.isEmpty_iff] at h
      rw [h]
      rfl
    · rw [List.isEmpty_iff] at h
      rw [h]
      rfl
  have hsplit : ∀ (pm : PageMeta) (v : Vocab) (inv : InvIndex) (q : Text),
      perform_search pm v inv q = sortByScoreDesc (resultsUnsorted pm v inv q) := by
    intro pm v inv q
    by_cases h1 : q.isEmpty = true
    · rw [hempty pm v inv q (Or.inl h1)]
      unfold perform_search
      rw [if_pos h1]
      rfl
    · by_cases h2 : (tokenize_and_normalize_query q).isEmpty = true
      · rw [hempty pm v inv q (Or.inr (Or.inl h2))]
        unfold perform_search
        rw [if_neg h1, if_pos h2]
        rfl
      · by_cases h3 : (queryWordIds v (tokenize_and_normalize_query q)).isEmpty = true
        · rw [hempty pm v inv q (Or.inr (Or.inr (Or.inl h3)))]
          unfold perform_search
          rw [if_neg h1, if_neg h2, if_pos h3]
          rfl
        · by_cases h4 : (buildScores inv
              (queryWordIds v (tokenize_and_normalize_query q)) []).isEmpty = true
          · rw [hempty pm v inv q (Or.inr (Or.inr (Or.inr h4)))]
            unfold perform_search
            rw [if_neg h1, if_neg h2, if_neg h3, if_pos h4]
            rfl
          · exact hqid pm v inv q h1 h2 h3 h4
  refine ⟨fun q => rfl, ?_, ?_, ?_, ?_, ?_⟩
  · intro v pre post t h
    unfold queryWordIds
    rw [List.filterMap_append, List.filterMap_append]
    simp [List.filterMap_cons, h]
  · intro pm v inv q r hr
    rw [hsplit] at hr
    rw [mem_sortByScoreDesc] at hr
    unfold resultsUnsorted resultsFromScores at hr
    rcases List.mem_filterMap.mp hr with ⟨e, he, hfe⟩
    rcases Option.map_eq_some'.mp hfe with ⟨sl, _, hr2⟩
    have hnd : ((buildScores inv (queryWordIds v (tokenize_and_normalize_query q))
        []).map Prod.fst).Nodup :=
      buildScores_keys_nodup inv _ (by simp)
    have hes : lookupScore
        (buildScores inv (queryWordIds v (tokenize_and_normalize_query q)) []) e.1 = e.2 :=
      lookupScore_of_mem hnd (by simpa using he)
    have hval := lookupScore_buildScores inv
      (queryWordIds v (tokenize_and_normalize_query q)) [] e.1
    have hz : lookupScore [] e.1 = 0 := rfl
    rw [hes, hz] at hval
    rw [← hr2]
    simp only
    omega
  · intro pm v inv q
    rw [hsplit]
    exact sorted_sortByScoreDesc _
  · intro pm v inv q c
    rw [hsplit]
    exact filter_sortByScoreDesc c _
  · decide

/-- Witness for C7: an out-of-vocabulary term is dropped from a concrete
query, and the score of a concrete returned result equals the specified
term-frequency sum. -/
theorem search_scoring_witness :
    (dictFind (str ("zzz")) searchExampleState.vocab.wordToId = none ∧
      queryWordIds searchExampleState.vocab ([str ("cat")] ++ str ("zzz") :: [str ("dog")]) =
        queryWordIds searchExampleState.vocab ([str ("cat")] ++ [str ("dog")])) ∧
    (({ pid := 0, slug := str ("page-one"), score := 1 } : SearchResult) ∈
        perform_search searchExampleState.meta searchExampleState.vocab
          searchExampleState.inv (str ("dog")) ∧
      ({ pid := 0, slug := str ("page-one"), score := 1 } : SearchResult).score =
        scoreSpec searchExampleState.inv
          (queryWordIds searchExampleState.vocab
            (tokenize_and_normalize_query (str ("dog"))))
          ({ pid := 0, slug := str ("page-one"), score := 1 } : SearchResult).pid) :=
  ⟨⟨by decide,
      search_scoring.2.1 searchExampleState.vocab [str ("cat")] [str ("dog")] (str ("zzz"))
        (by decide)⟩,
    ⟨by decide,
      search_scoring.2.2.1 searchExampleState.meta searchExampleState.vocab
        searchExampleState.inv (str ("dog"))
        { pid := 0, slug := str ("page-one"), score := 1 } (by decide)⟩⟩

/-! ## Similar-pages plugin (`plugins/similar_pages_plugin.py`)

`cosine_similarity` works on TF-IDF vectors stored as dicts from word-id
to float weight.  Floating-point arithmetic is idealized as real
arithmetic; `math.sqrt` is `Real.sqrt`.  The key set of a vector is a
`Finset` mirroring the Python `set` of parsed keys. -/

/-- Model of `{int(k) for k in vec.keys()}`. -/
def vecKeys (v : List (Nat × ℝ)) : Finset ℕ := (v.map Prod.fst).toFinset

/-- Model of `vec[str(x)]` (0 when absent; the code only accesses present keys). -/
def vecVal (v : List (Nat × ℝ)) (k : ℕ) : ℝ := (dictFind k v).getD 0

/-- Model of `cosine_similarity`: 0 when the key sets do not intersect, 0 when
either magnitude is zero, otherwise the dot product over the key
intersection divided by the product of the L2 norms over each vector's
full key set. -/
noncomputable def cosine_similarity (v1 v2 : List (Nat × ℝ)) : ℝ :=
  if vecKeys v1 ∩ vecKeys v2 = ∅ then 0
  else if Real.sqrt (∑ x ∈ vecKeys v1, vecVal v1 x ^ 2) = 0 ∨
      Real.sqrt (∑ x ∈ vecKeys v2, vecVal v2 x ^ 2) = 0 then 0
  else (∑ x ∈ vecKeys v1 ∩ vecKeys v2, vecVal v1 x * vecVal v2 x) /
    (Real.sqrt (∑ x ∈ vecKeys v1, vecVal v1 x ^ 2) *
      Real.sqrt (∑ x ∈ vecKeys v2, vecVal v2 x ^ 2))

theorem dictFind_of_mem_nodup {κ ν : Type} [DecidableEq κ] :
    ∀ {d : List (κ × ν)}, (d.map Prod.fst).Nodup → ∀ {e : κ × ν}, e ∈ d →
    dictFind e.1 d = some e.2 := by
  intro d
  induction d with
  | nil => intro _ e he; simp at he
  | cons f rest ih =>
    intro hnd e he
    simp only [List.map_cons, List.nodup_cons] at hnd
    rcases List.mem_cons.mp he with he | he
    · subst he
      simp [dictFind]
    · have hne : f.1 ≠ e.1 := by
        intro hc
        exact hnd.1 (hc ▸ List.mem_map_of_mem Prod.fst he)
      simp only [dictFind, hne, if_false]
      exact ih hnd.2 he

/-- Claim C8: cosine similarity is symmetric, and the similarity of a
non-zero vector with itself is exactly 1 (real-number idealization of the
floating-point computation). -/
theorem cosine_similarity_properties :
    (∀ v1 v2 : List (Nat × ℝ), cosine_similarity v1 v2 = cosine_similarity v2 v1) ∧
    (∀ v : List (Nat × ℝ), (v.map Prod.fst).Nodup → (∃ e ∈ v, e.2 ≠ 0) →
      cosine_similarity v v = 1) := by
  constructor
  · intro v1 v2
    unfold cosine_similarity
    rw [Finset.inter_comm]
    by_cases h : vecKeys v2 ∩ vecKeys v1 = ∅
    · rw [if_pos h, if_pos h]
    · rw [if_neg h, if_neg h]
      have hdot : ∑ x ∈ vecKeys v2 ∩ vecKeys v1, vecVal v1 x * vecVal v2 x =
          ∑ x ∈ vecKeys v2 ∩ vecKeys v1, vecVal v2 x * vecVal v1 x :=
        Finset.sum_congr rfl (fun x _ => mul_comm _ _)
      by_cases hm : Real.sqrt (∑ x ∈ vecKeys v1, vecVal v1 x ^ 2) = 0 ∨
          Real.sqrt (∑ x ∈ vecKeys v2, vecVal v2 x ^ 2) = 0
      · rw [if_pos hm, if_pos (Or.symm hm)]
      · rw [if_neg hm, if_neg (fun hh => hm (Or.symm hh))]
        rw [hdot, mul_comm]
  · intro v hnd hnz
    rcases hnz with ⟨e, he, hez⟩
    have hval : vecVal v e.1 = e.2 := by
      unfold vecVal
      rw [dictFind_of_mem_nodup hnd he]
      rfl
    have hmem : e.1 ∈ vecKeys v := by
      unfold vecKeys
      rw [List.mem_toFinset]
      exact List.mem_map_of_mem Prod.fst he
    have hSpos : 0 < ∑ x ∈ vecKeys v, vecVal v x ^ 2 := by
      refine Finset.sum_pos' (fun i _ => sq_nonneg _) ⟨e.1, hmem, ?_⟩
      rw [hval]
      positivity
    have hm : 0 < Real.sqrt (∑ x ∈ vecKeys v, vecVal v x ^ 2) := Real.sqrt_pos.mpr hSpos
    unfold cosine_similarity
    rw [Finset.inter_self]
    rw [if_neg (by
      intro hc
      rw [hc] at hmem
      exact absurd hmem (Finset.not_mem_empty _))]
    rw [if_neg (by
      push_neg
      exact ⟨ne_of_gt hm, ne_of_gt hm⟩)]
    have hdd : ∑ x ∈ vecKeys v, vecVal v x * vecVal v x =
        ∑ x ∈ vecKeys v, vecVal v x ^ 2 :=
      Finset.sum_congr rfl (fun x _ => (pow_two (vecVal v x)).symm)
    rw [hdd, Real.mul_self_sqrt (le_of_lt hSpos)]
    exact div_self (ne_of_gt hSpos)

/-- Witness for C8: the one-entry vector `{0: 1.0}` has similarity 1 with
itself. -/
theorem cosine_similarity_witness :
    ((([((0 : Nat), (1 : ℝ))]).map Prod.fst).Nodup ∧
      (∃ e ∈ [((0 : Nat), (1 : ℝ))], e.2 ≠ 0)) ∧
    cosine_similarity [((0 : Nat), (1 : ℝ))] [((0 : Nat), (1 : ℝ))] = 1 :=
  ⟨⟨by simp, ⟨(0, 1), by simp, one_ne_zero⟩⟩,
    cosine_similarity_properties.2 [((0 : Nat), (1 : ℝ))] (by simp)
      ⟨(0, 1), by simp, one_ne_zero⟩⟩

/-! ## Page view pipeline and the HTML cache (claim C1)

`view_page` (`app.py`) runs `_get_page_data` (redirect to the edit flow
when the source file is missing), `_process_markdown_content`, and
`_render_page_html`, which always calls `pypandoc.convert_text`.  No code
path under `src/` reads a cached HTML artifact or compares file
modification times: `config.py` defines `CACHE_DIR` but nothing uses it.
The request model below carries the cache fields precisely to show the
pipeline ignores them.  Hooks and slug normalization are orthogonal to
the cache question and are modelled separately (`trigger_hook`,
`normalizePageName`). -/

structure ViewRequest where
  pageExists : Bool
  cacheExists : Bool
  sourceMtime : Nat
  cacheMtime : Nat
deriving DecidableEq, Repr

inductive ViewOutcome where
  | redirectToEdit
  | renderedFromConversion
  | renderedFromCache
deriving DecidableEq, Repr

/-- Model of `view_page` from `app.py`: redirect to edit when the page file is
absent, otherwise convert through pandoc unconditionally. -/
def view_page (rq : ViewRequest) : ViewOutcome :=
  if rq.pageExists then ViewOutcome.renderedFromConversion
  else ViewOutcome.redirectToEdit

/-- The render pipeline as the specification words it ("if a cached HTML
artifact exists and its modification time is strictly newer than the
source file's, skip conversion and serve cached HTML").  This definition
follows the spec, not the source, and exists only to be compared with
`view_page`. -/
def view_page_spec (rq : ViewRequest) : ViewOutcome :=
  if rq.pageExists then
    if rq.cacheExists && decide (rq.sourceMtime < rq.cacheMtime) then
      ViewOutcome.renderedFromCache
    else ViewOutcome.renderedFromConversion
  else ViewOutcome.redirectToEdit

/-- Counterexample for claim C1: with an existing page whose cached
artifact exists and is strictly newer (source mtime 3, cache mtime 5),
the code still reconverts, while the claimed pipeline would serve the
cache. -/
theorem view_page_cache_counterexample :
    view_page { pageExists := true, cacheExists := true, sourceMtime := 3, cacheMtime := 5 } =
      ViewOutcome.renderedFromConversion ∧
    view_page_spec
        { pageExists := true, cacheExists := true, sourceMtime := 3, cacheMtime := 5 } =
      ViewOutcome.renderedFromCache ∧
    view_page { pageExists := true, cacheExists := true, sourceMtime := 3, cacheMtime := 5 } ≠
      view_page_spec
        { pageExists := true, cacheExists := true, sourceMtime := 3, cacheMtime := 5 } := by
  refine ⟨rfl, rfl, ?_⟩
  decide

/-- Claim C1 (amended): the render pipeline never consults the cached
HTML artifact — every view of an existing page reconverts, whatever the
cache's existence or timestamps.  In particular, whenever the cached
artifact's timestamp is older than or equal to the source file's, the
pipeline reconverts (the freshness half of the original claim). -/
theorem view_page_always_reconverts (rq : ViewRequest) (h : rq.pageExists = true) :
    view_page rq = ViewOutcome.renderedFromConversion := by
  unfold view_page
  rw [h]
  rfl

/-- Witness for the amended C1 theorem: a stale cache (cache mtime 2 not
newer than source mtime 7) is reconverted. -/
theorem view_page_always_reconverts_witness :
    ({ pageExists := true, cacheExists := true, sourceMtime := 7, cacheMtime := 2 } :
      ViewRequest).pageExists = true ∧
    view_page { pageExists := true, cacheExists := true, sourceMtime := 7, cacheMtime := 2 } =
      ViewOutcome.renderedFromConversion :=
  ⟨rfl, view_page_always_reconverts
    { pageExists := true, cacheExists := true, sourceMtime := 7, cacheMtime := 2 } rfl⟩

/-! ## Edit locking (claim C2)

`edit_page` (`app.py` lines 410–419): when `<page>.md.lock` exists the
request is denied and redirected to the view, whatever the lock's age or
holder — the file's content is only interpolated into a flash message,
and no timestamp comparison or holder comparison appears anywhere under
`src/`; when no lock file exists, one is written naming the requester.
The model pairs the outcome with the holder of the lock file
afterwards.  Editor identities are represented by numbers. -/

structure EditRequest where
  lockExists : Bool
  lockAgeSeconds : Nat
  lockTimeoutSeconds : Nat
  lockHolder : Nat
  requester : Nat
deriving DecidableEq, Repr

inductive EditOutcome where
  | deniedRedirectToView
  | acquiredRenderEditor
deriving DecidableEq, Repr

/-- The lock handling of `edit_page` from `app.py`. -/
def edit_page_lock (rq : EditRequest) : EditOutcome × Nat :=
  if rq.lockExists then (EditOutcome.deniedRedirectToView, rq.lockHolder)
  else (EditOutcome.acquiredRenderEditor, rq.requester)

/-- Lock acquisition as the specification words it ("if an existing lock
file is younger than a configured timeout and held by a different
identity, deny entry; if older than timeout, delete and replace").  This
definition follows the spec, not the source, and exists only to be
compared with `edit_page_lock`. -/
def edit_page_lock_spec (rq : EditRequest) : EditOutcome × Nat :=
  if rq.lockExists && decide (rq.lockAgeSeconds < rq.lockTimeoutSeconds) &&
      decide (rq.lockHolder ≠ rq.requester) then
    (EditOutcome.deniedRedirectToView, rq.lockHolder)
  else (EditOutcome.acquiredRenderEditor, rq.requester)

/-- Counterexample for claim C2: a lock aged 100 seconds against a
10-second timeout, held by editor 0, requested by editor 1 — the claimed
behaviour lets editor 1 take the lock over, but the code denies the
request because the lock file exists. -/
theorem edit_page_lock_counterexample :
    edit_page_lock
        { lockExists := true, lockAgeSeconds := 100, lockTimeoutSeconds := 10,
          lockHolder := 0, requester := 1 } =
      (EditOutcome.deniedRedirectToView, 0) ∧
    edit_page_lock_spec
        { lockExists := true, lockAgeSeconds := 100, lockTimeoutSeconds := 10,
          lockHolder := 0, requester := 1 } =
      (EditOutcome.acquiredRenderEditor, 1) ∧
    edit_page_lock
        { lockExists := true, lockAgeSeconds := 100, lockTimeoutSeconds := 10,
          lockHolder := 0, requester := 1 } ≠
      edit_page_lock_spec
        { lockExists := true, lockAgeSeconds := 100, lockTimeoutSeconds := 10,
          lockHolder := 0, requester := 1 } := by
  refine ⟨rfl, by decide, by decide⟩

/-- Claim C2 (amended): any existing lock file denies entry to edit mode,
regardless of the lock's age relative to the timeout and regardless of
who holds it, and the lock is left in place; only when no lock file
exists does the requester acquire the lock. -/
theorem edit_page_lock_behavior :
    (∀ rq : EditRequest, rq.lockExists = true →
      edit_page_lock rq = (EditOutcome.deniedRedirectToView, rq.lockHolder)) ∧
    (∀ rq : EditRequest, rq.lockExists = false →
      edit_page_lock rq = (EditOutcome.acquiredRenderEditor, rq.requester)) := by
  constructor
  · intro rq h
    unfold edit_page_lock
    rw [h]
    rfl
  · intro rq h
    unfold edit_page_lock
    rw [h]
    rfl

/-- Witness for the amended C2 theorem: an expired lock held by another
editor still denies entry, and acquisition happens with no lock file. -/
theorem edit_page_lock_behavior_witness :
    (({ lockExists := true, lockAgeSeconds := 100, lockTimeoutSeconds := 10,
        lockHolder := 0, requester := 1 } : EditRequest).lockExists = true ∧
      edit_page_lock
          { lockExists := true, lockAgeSeconds := 100, lockTimeoutSeconds := 10,
            lockHolder := 0, requester := 1 } =
        (EditOutcome.deniedRedirectToView, 0)) ∧
    (({ lockExists := false, lockAgeSeconds := 0, lockTimeoutSeconds := 10,
        lockHolder := 0, requester := 1 } : EditRequest).lockExists = false ∧
      edit_page_lock
          { lockExists := false, lockAgeSeconds := 0, lockTimeoutSeconds := 10,
            lockHolder := 0, requester := 1 } =
        (EditOutcome.acquiredRenderEditor, 1)) :=
  ⟨⟨rfl, edit_page_lock_behavior.1
      { lockExists := true, lockAgeSeconds := 100, lockTimeoutSeconds := 10,
        lockHolder := 0, requester := 1 } rfl⟩,
    ⟨rfl, edit_page_lock_behavior.2
      { lockExists := false, lockAgeSeconds := 0, lockTimeoutSeconds := 10,
        lockHolder := 0, requester := 1 } rfl⟩⟩

end Pandoky
